import Mathlib

/-!
Verification development for the pwndbg ↔ Binary Ninja integration.

The embedding covers:
* `binja_script.py` — the Binary-Ninja-side XML-RPC server: tag state
  (PC / breakpoint markers), read-only queries (containing function,
  comments, function types), and server start/stop.
* `pwndbg/gdblib/hooks.py` — the cache trigger-group wiring passed to
  `connect_clear_caching_events`.
* The event bus / cache registry (`pwndbg/gdblib/events.py`,
  `pwndbg/lib/cache.py`) and the address translator
  (`pwndbg/integration/binja.py`) are not part of the source tree here;
  their behaviour is modelled from the specification where needed, and
  each such definition says so in its doc comment.

Mutable Binary Ninja state (`BinaryView` tags, tag types) is embedded as
explicit state passing over `BVState`; Python loops that remove tag
references become `List.filter`, and `min(..., key=...)` becomes a left
fold that keeps the earlier element on ties, exactly like Python's `min`.
-/

/-- A Binary Ninja type: either a pointer to another type or a named leaf
type (`binaryninja.types.PointerType` vs. everything else). -/
inductive BNType where
  | ptr (target : BNType)
  | named (name : String)
deriving DecidableEq

/-- `count_pointers` from `binja_script.py`: unwrap pointer types, counting
the indirections, and return the printed leaf type with the count.  The
source's `while isinstance(ty, PointerType)` loop is structural recursion
on `BNType`. -/
def count_pointers : BNType → String × Nat
  | .ptr target => ((count_pointers target).1, (count_pointers target).2 + 1)
  | .named n => (n, 0)

/-- A tag reference: its tag-type name, address and description
(`BNTagReference` together with the tag data it refers to). -/
structure Tag where
  ty : String
  addr : Nat
  desc : String
deriving DecidableEq

/-- A Binary Ninja function as the queries see it: symbol name, half-open
address range `[start, stop)`, per-address comments, return type and
parameter variables. -/
structure BNFunc where
  name : String
  start : Nat
  stop : Nat
  comments : List (Nat × String)
  ret : BNType
  params : List (String × BNType)
deriving DecidableEq

/-- The mutable `BinaryView` state: registered tag types (name ↦ icon),
the tag references, the analysed functions, and the global (non-function)
comments. -/
structure BVState where
  tagTypes : List (String × String)
  tags : List Tag
  funcs : List BNFunc
  gcomments : List (Nat × String)
deriving DecidableEq

/-- `get_tag_refs` from `binja_script.py`: all tag references of the given
tag-type name. -/
def get_tag_refs (bv : BVState) (ty : String) : List Tag :=
  bv.tags.filter (fun t => t.ty == ty)

/-- `add_auto_tag` from `binja_script.py`: create a tag of the given type
at `addr` and register it. -/
def add_auto_tag (bv : BVState) (addr : Nat) (name desc : String) : BVState :=
  { bv with tags := bv.tags ++ [⟨name, addr, desc⟩] }

/-- `bv.get_functions_containing(addr)`: the functions whose range contains
`addr`, in analysis (declaration) order. -/
def get_functions_containing (bv : BVState) (addr : Nat) : List BNFunc :=
  bv.funcs.filter (fun f => decide (f.start ≤ addr ∧ addr < f.stop))

/-- `get_widest_func` from `binja_script.py`: the earliest-starting function
containing `addr`, `none` when there is no such function.  Python's
`min(funcs, key=lambda f: f.start)` keeps the first minimum on ties, as
does this fold. -/
def get_widest_func (bv : BVState) (addr : Nat) : Option BNFunc :=
  match get_functions_containing bv addr with
  | [] => none
  | f :: fs => some (fs.foldl (fun best g => if g.start < best.start then g else best) f)

/-- `bv.get_function_at(addr)`: the function starting exactly at `addr`. -/
def get_function_at (bv : BVState) (addr : Nat) : Option BNFunc :=
  bv.funcs.find? (fun f => f.start == addr)

/-- The loop body of `ServerHandler.init`: create the tag type `kv` unless
its name is already registered (`if k not in self.bv.tag_types`). -/
def add_tag_type (bv : BVState) (kv : String × String) : BVState :=
  if (bv.tagTypes.map Prod.fst).contains kv.1 then bv
  else { bv with tagTypes := bv.tagTypes ++ [kv] }

/-- `ServerHandler.init`: register the two tag types if not already
present. -/
def handler_init (bv : BVState) : BVState :=
  [("pwndbg-pc", "➡️"), ("pwndbg-bp", "🔴")].foldl add_tag_type bv

/-- `ServerHandler.clear_pc_tag`: remove every `pwndbg-pc` tag reference
(the source's removal loop over `get_tag_refs` is a filter). -/
def clear_pc_tag (bv : BVState) : BVState :=
  { bv with tags := bv.tags.filter (fun t => !(t.ty == "pwndbg-pc")) }

/-- `ServerHandler.update_pc_tag`: clear all PC tags, then tag `new_pc`. -/
def update_pc_tag (bv : BVState) (new_pc : Nat) : BVState :=
  add_auto_tag (clear_pc_tag bv) new_pc "pwndbg-pc" "current pc"

/-- `ServerHandler.get_bp_tags`: the addresses of all `pwndbg-bp` tag
references. -/
def get_bp_tags (bv : BVState) : List Nat :=
  (get_tag_refs bv "pwndbg-bp").map (fun t => t.addr)

/-- `toggle_breakpoint` from `binja_script.py`: the removal loop sets
`found` when some breakpoint tag ref has `t.addr == addr` (i.e. when `any`
matches) and removes every matching ref; when nothing was found, it adds
exactly one breakpoint tag. -/
def toggle_breakpoint (bv : BVState) (addr : Nat) : BVState :=
  if (get_tag_refs bv "pwndbg-bp").any (fun t => t.addr == addr) then
    { bv with tags := bv.tags.filter (fun t => !(t.ty == "pwndbg-bp" && t.addr == addr)) }
  else
    add_auto_tag bv addr "pwndbg-bp" "GDB breakpoint"

/-- `ServerHandler.get_func_info`: symbol name and start of the widest
function containing `addr`, `none` ("not found") otherwise. -/
def get_func_info (bv : BVState) (addr : Nat) : Option (String × Nat) :=
  (get_widest_func bv addr).map (fun func => (func.name, func.start))

/-- Comment lookup in an association list; Binary Ninja's `get_comment_at`
returns the empty string when no comment is present. -/
def lookup_comment (cs : List (Nat × String)) (addr : Nat) : String :=
  ((cs.find? (fun p => p.1 == addr)).map Prod.snd).getD ""

/-- `Function.get_comment_at(addr)`. -/
def func_comment_at (f : BNFunc) (addr : Nat) : String :=
  lookup_comment f.comments addr

/-- `bv.get_comment_at(addr)`. -/
def bv_comment_at (bv : BVState) (addr : Nat) : String :=
  lookup_comment bv.gcomments addr

/-- Helper for `split_nl`, recursing over the characters. -/
def split_nl_aux : List Char → String → List String
  | [], acc => [acc]
  | c :: cs, acc =>
    if c = '\n' then acc :: split_nl_aux cs "" else split_nl_aux cs (acc.push c)

/-- Python's `s.split("\n")`: split at every newline, keeping empty pieces
(so `"".split` gives `[""]` and a trailing newline yields a final `""`). -/
def split_nl (s : String) : List String :=
  split_nl_aux s.toList ""

/-- `ServerHandler.get_comments`: comment lines of every function containing
`addr` (sorted by ascending function start; Python's `sorted` is stable, as
is insertion sort), then the global comment, each split at newlines; empty
lines are removed and `"// "` is prepended. -/
def get_comments (bv : BVState) (addr : Nat) : List String :=
  let sortedFuncs :=
    List.insertionSort (fun a b : BNFunc => a.start ≤ b.start)
      (get_functions_containing bv addr)
  let ret := (sortedFuncs.flatMap (fun f => split_nl (func_comment_at f addr)))
    ++ split_nl (bv_comment_at bv addr)
  (ret.filter (fun x => !(x == ""))).map (fun x => "// " ++ x)

/-- `ServerHandler.get_func_type`: for the function starting exactly at
`addr`, the return type as (leaf name, pointer depth, function name) and
each parameter as (leaf name, pointer depth, parameter name); `none`
otherwise. -/
def get_func_type (bv : BVState) (addr : Nat) :
    Option ((String × Nat × String) × List (String × Nat × String)) :=
  (get_function_at bv addr).map (fun f =>
    (((count_pointers f.ret).1, (count_pointers f.ret).2, f.name),
     f.params.map (fun arg => ((count_pointers arg.2).1, (count_pointers arg.2).2, arg.1))))

/-- The Binary-Ninja-side world: the bound view and whether the module-level
`server` global is set. -/
structure World where
  bv : BVState
  server : Bool
deriving DecidableEq

/-- `start_server` from `binja_script.py`: a handler for the view is created
and `init`ed before the `server is not None` early return, so `init` runs on
every invocation; the server itself is only created when none exists. -/
def start_server (w : World) : World :=
  let bv' := handler_init w.bv
  if w.server then { w with bv := bv' }
  else { bv := bv', server := true }

/-- `stop_server` from `binja_script.py`: shut the server down and clear the
global, or return immediately when it is `None`. -/
def stop_server (w : World) : World :=
  if w.server then { w with server := false } else w

/-- The debugger lifecycle events (`pwndbg.gdblib.events`). -/
inductive Event where
  | start
  | stop
  | exit
  | cont
  | new_objfile
  | thread
  | before_prompt
  | mem_changed
  | reg_changed
deriving DecidableEq, BEq

/-- The group → events dictionary passed to `connect_clear_caching_events`
in `pwndbg/gdblib/hooks.py`, in source order. -/
def connect_groups : List (String × List Event) :=
  [("stop", [.stop, .mem_changed, .reg_changed]),
   ("exit", [.exit]),
   ("objfile", [.new_objfile]),
   ("start", [.start]),
   ("cont", [.cont, .mem_changed, .reg_changed]),
   ("thread", [.thread]),
   ("prompt", [.before_prompt]),
   ("forever", [])]

/-- The tuple of events a trigger group maps to (empty for an unknown
group). -/
def triggersOf (wiring : List (String × List Event)) (g : String) : List Event :=
  ((wiring.find? (fun p => p.1 == g)).map Prod.snd).getD []

/-- A cache: the trigger group it subscribed to at registration time, and
its current contents (cleared = empty). -/
structure Cache where
  group : String
  contents : List Nat
deriving DecidableEq

/-- Modelled from the spec: the state the event bus dispatches over —
the registered caches plus the remaining (non-cache) program state that
feature handlers may read and write (`pwndbg/lib/cache.py` and the handler
targets are not under the source tree). -/
structure SysState where
  caches : List Cache
  feature : Nat
deriving DecidableEq

/-- Modelled from the spec: a handler either is the Cache Registry's
clearing handler, or is a feature handler that reads ambient state
(including caches) and updates non-cache state (`pwndbg/gdblib/events.py`
is not under the source tree). -/
inductive HandlerAction where
  | clear
  | feature (f : List Cache → Nat → Nat)

/-- Whether a handler action is the cache-clearing one. -/
def isClear : HandlerAction → Bool
  | .clear => true
  | .feature _ => false

/-- Modelled from the spec: a registered handler with its priority (lower
runs first; list position is insertion order, the tie-break). -/
structure RegHandler where
  priority : Nat
  action : HandlerAction

/-- Modelled from the spec: `HandlerPriority.CACHE_CLEAR`, the reserved
priority guaranteed to run before any other handler on the same event. -/
def cacheClearPriority : Nat := 0

/-- Whether the event `e` triggers clearing of caches in group `g` under
the given wiring. -/
def clearsGroup (wiring : List (String × List Event)) (e : Event) (g : String) : Bool :=
  (triggersOf wiring g).contains e

/-- Modelled from the spec: the Cache Registry's clearing step for event
`e` — every cache whose group is triggered by `e` is emptied in one atomic
step. -/
def clearCaches (wiring : List (String × List Event)) (e : Event)
    (cs : List Cache) : List Cache :=
  cs.map (fun c => if clearsGroup wiring e c.group then { c with contents := [] } else c)

/-- Modelled from the spec: running one handler on the dispatch state. -/
def runHandler (wiring : List (String × List Event)) (e : Event)
    (a : HandlerAction) (s : SysState) : SysState :=
  match a with
  | .clear => { s with caches := clearCaches wiring e s.caches }
  | .feature f => { s with feature := f s.caches s.feature }

/-- Modelled from the spec: the event bus orders an event's handlers by
(priority, insertion index) — a stable sort on priority. -/
def sortHandlers (hs : List RegHandler) : List RegHandler :=
  List.insertionSort (fun a b : RegHandler => a.priority ≤ b.priority) hs

/-- Modelled from the spec: `dispatch(event)` runs every registered handler
in sorted order, synchronously. -/
def dispatch (wiring : List (String × List Event)) (e : Event)
    (hs : List RegHandler) (s : SysState) : SysState :=
  (sortHandlers hs).foldl (fun st h => runHandler wiring e h.action st) s

/-- The states of a dispatch: entry `i` is the state just before the `i`-th
sorted handler runs (and the last entry is the final state). -/
def dispatchStates (wiring : List (String × List Event)) (e : Event)
    (hs : List RegHandler) (s : SysState) : List SysState :=
  List.scanl (fun st h => runHandler wiring e h.action st) s (sortHandlers hs)

/-- The caches subscribed to group "forever", with their contents. -/
def foreverCaches (cs : List Cache) : List Cache :=
  cs.filter (fun c => c.group == "forever")

/-- Modelled from the spec: `pwndbg.integration.binja`'s translation of a
runtime address to the analysis tool's static address space
(`l2r`/`to_static`): `runtime_addr - runtime_base + static_base`. -/
def to_static (runtime_base static_base x : Int) : Int :=
  x - runtime_base + static_base

/-- Modelled from the spec: the inverse translation (`r2l`/`to_runtime`):
`static_addr - static_base + runtime_base`. -/
def to_runtime (runtime_base static_base s : Int) : Int :=
  s - static_base + runtime_base

/-- A fresh, initialised Binary Ninja view with no tags, functions or
comments (the state after `ServerHandler.init` on an empty view). -/
def emptyInitBV : BVState := handler_init ⟨[], [], [], []⟩

/-- The two overlapping functions of the spec's widest-function example:
`F1` covers `[0x1000, 0x2000)` and `F2` covers `[0x1500, 0x1800)`. -/
def exF1 : BNFunc := ⟨"F1", 0x1000, 0x2000, [], .named "void", []⟩

/-- See `exF1`. -/
def exF2 : BNFunc := ⟨"F2", 0x1500, 0x1800, [], .named "void", []⟩

/-- A view holding just `exF1` and `exF2`. -/
def exBV : BVState := ⟨[], [], [exF1, exF2], []⟩

/-- The leaf-type name obtained by unwrapping every pointer wrapper, as the
spec words it (comparison target for the source's `count_pointers`). -/
def spec_leaf_name : BNType → String
  | .ptr target => spec_leaf_name target
  | .named n => n

/-- The number of pointer wrappers unwrapped to reach the leaf type, as the
spec words it (comparison target for the source's `count_pointers`). -/
def spec_ptr_depth : BNType → Nat
  | .ptr target => spec_ptr_depth target + 1
  | .named _ => 0

/-- A function for the exact-match example: `exTyF` starts at `0x1500` with
return type `char*` and parameters `int argc, char** argv`. -/
def exTyF : BNFunc :=
  ⟨"f3", 0x1500, 0x1800, [], .ptr (.named "char"),
   [("argc", .named "int"), ("argv", .ptr (.ptr (.named "char")))]⟩

/-- A view in which `0x1600` lies strictly inside `exF1`'s body but no
function starts there. -/
def exTyBV : BVState := ⟨[], [], [exF1, exTyF], []⟩

/-- The spec's wording of comment splitting: one entry per line with empty
lines dropped (comparison target for `get_comments`). -/
def spec_comment_lines (raw : String) : List String :=
  (split_nl raw).filter (fun x => !(x == ""))

/-- The spec's wording of `get_comments`: the non-empty comment lines of
every containing function in ascending start order, then the non-empty
global comment lines, each prefixed with the comment marker (comparison
target for `get_comments`). -/
def get_comments_spec (bv : BVState) (addr : Nat) : List String :=
  let sortedFuncs :=
    List.insertionSort (fun a b : BNFunc => a.start ≤ b.start)
      (get_functions_containing bv addr)
  ((sortedFuncs.flatMap (fun f => spec_comment_lines (func_comment_at f addr)))
    ++ spec_comment_lines (bv_comment_at bv addr)).map (fun x => "// " ++ x)

/-- A view whose single function carries the raw comment `"a\nb\n"` at
`0x1600`. -/
def exCommentBV : BVState :=
  ⟨[], [], [{ exF1 with comments := [(0x1600, "a\nb\n")] }], []⟩

instance : IsTotal RegHandler (fun a b => a.priority ≤ b.priority) :=
  ⟨fun a b => Nat.le_total a.priority b.priority⟩

instance : IsTrans RegHandler (fun a b => a.priority ≤ b.priority) :=
  ⟨fun _ _ _ h1 h2 => Nat.le_trans h1 h2⟩

/-- A concrete handler table for the witness: one feature handler at
priority 5 and the clearing handler at the reserved priority 0. -/
def exHandlers : List RegHandler :=
  [⟨5, .feature (fun _ n => n + 1)⟩, ⟨0, .clear⟩]

/-- A concrete dispatch state: a populated "stop" cache and a populated
"forever" cache. -/
def exSysState : SysState := ⟨[⟨"stop", [1, 2]⟩, ⟨"forever", [3]⟩], 0⟩

/-! ## Theorems -/

/-- Removing the breakpoint tags at one address commutes with restricting a
view's tags to breakpoint tags. -/
theorem get_tag_refs_remove_bp (bv : BVState) (a : Nat) :
    get_tag_refs
      { bv with tags := bv.tags.filter (fun t => !(t.ty == "pwndbg-bp" && t.addr == a)) }
      "pwndbg-bp"
      = (get_tag_refs bv "pwndbg-bp").filter (fun t => !(t.addr == a)) := by
  simp only [get_tag_refs, List.filter_filter]
  apply List.filter_congr
  intro t _
  cases h1 : (t.ty == "pwndbg-bp") <;> cases h2 : (t.addr == a) <;> simp [h1, h2]

/-- The breakpoint-address list after a toggle: filter out the address when
it was tagged, append it otherwise. -/
theorem bp_toggle (bv : BVState) (a : Nat) :
    get_bp_tags (toggle_breakpoint bv a) =
      if (get_bp_tags bv).any (fun x => x == a) then
        (get_bp_tags bv).filter (fun x => !(x == a))
      else get_bp_tags bv ++ [a] := by
  have hany : ((get_bp_tags bv).any (fun x => x == a))
      = (get_tag_refs bv "pwndbg-bp").any (fun t => t.addr == a) := by
    simp only [get_bp_tags]
    induction get_tag_refs bv "pwndbg-bp" with
    | nil => rfl
    | cons t ts ih => simp [ih]
  rw [hany]
  cases hfound : (get_tag_refs bv "pwndbg-bp").any (fun t => t.addr == a) with
  | true =>
    simp only [toggle_breakpoint, hfound, if_true]
    have h1 := get_tag_refs_remove_bp bv a
    simp only [get_bp_tags, h1]
    rw [List.filter_map]
    rfl
  | false =>
    simp only [toggle_breakpoint, hfound, Bool.false_eq_true, if_false]
    simp [get_bp_tags, get_tag_refs, add_auto_tag, List.filter_append]

/-- A toggled-off address no longer appears among the breakpoint tags. -/
theorem bp_filter_self_not_mem (l : List Nat) (a : Nat) :
    (l.filter (fun x => !(x == a))).any (fun x => x == a) = false := by
  rw [List.any_eq_false]
  intro x hx
  rcases List.mem_filter.mp hx with ⟨-, hkeep⟩
  simpa using hkeep

/-- Toggling preserves duplicate-freedom of the breakpoint-address list. -/
theorem bp_nodup_toggle (bv : BVState) (a : Nat)
    (h : (get_bp_tags bv).Nodup) : (get_bp_tags (toggle_breakpoint bv a)).Nodup := by
  rw [bp_toggle]
  cases hfound : (get_bp_tags bv).any (fun x => x == a) with
  | true => simpa using h.filter (fun x => !(x == a))
  | false =>
    simp only [Bool.false_eq_true, if_false]
    rw [List.nodup_append]
    refine ⟨h, List.nodup_singleton a, ?_⟩
    intro x hx hx'
    rcases List.any_eq_false.mp hfound x hx with hne
    simp only [List.mem_singleton] at hx'
    exact hne (by simp [hx'])

/-- Under toggle-only mutation, any state reached from a duplicate-free one
stays duplicate-free. -/
theorem bp_nodup_foldl (ops : List Nat) :
    ∀ bv : BVState, (get_bp_tags bv).Nodup →
      (get_bp_tags (ops.foldl toggle_breakpoint bv)).Nodup := by
  induction ops with
  | nil => intro bv h; exact h
  | cons a t ih =>
    intro bv h
    exact ih (toggle_breakpoint bv a) (bp_nodup_toggle bv a h)

/-- C2: `toggle_breakpoint(a)` removes every breakpoint tag at `a` when one
exists and otherwise creates exactly one; two consecutive toggles at `a`
restore the breakpoint-tag set; and from an empty state,
`toggle a; toggle b; toggle a` with `a ≠ b` leaves `get_bp_tags` returning
exactly `[b]`. -/
theorem toggle_breakpoint_toggle_semantics (bv : BVState) (a b : Nat) :
    ((get_tag_refs bv "pwndbg-bp").any (fun t => t.addr == a) = true →
      get_tag_refs (toggle_breakpoint bv a) "pwndbg-bp"
        = (get_tag_refs bv "pwndbg-bp").filter (fun t => !(t.addr == a)))
  ∧ ((get_tag_refs bv "pwndbg-bp").any (fun t => t.addr == a) = false →
      get_tag_refs (toggle_breakpoint bv a) "pwndbg-bp"
        = get_tag_refs bv "pwndbg-bp" ++ [⟨"pwndbg-bp", a, "GDB breakpoint"⟩])
  ∧ (∀ x : Nat,
      x ∈ get_bp_tags (toggle_breakpoint (toggle_breakpoint bv a) a)
        ↔ x ∈ get_bp_tags bv)
  ∧ (a ≠ b →
      get_bp_tags (toggle_breakpoint (toggle_breakpoint
        (toggle_breakpoint emptyInitBV a) b) a) = [b]) := by
  refine ⟨?_, ?_, ?_, ?_⟩
  · intro hfound
    rw [toggle_breakpoint]
    simp only [hfound, if_true]
    exact get_tag_refs_remove_bp bv a
  · intro hfound
    rw [toggle_breakpoint]
    simp only [hfound, Bool.false_eq_true, if_false]
    simp [get_tag_refs, add_auto_tag, List.filter_append]
  · intro x
    rw [bp_toggle, bp_toggle]
    cases hfound : (get_bp_tags bv).any (fun y => y == a) with
    | true =>
      simp only [if_true, bp_filter_self_not_mem, Bool.false_eq_true, if_false]
      have ha : a ∈ get_bp_tags bv := by
        rcases List.any_eq_true.mp hfound with ⟨y, hy, hya⟩
        simpa [show y = a by simpa using hya] using hy
      by_cases hxa : x = a
      · subst hxa
        simp [ha]
      · simp only [List.mem_append, List.mem_singleton, List.mem_filter]
        constructor
        · rintro (⟨hx, -⟩ | h)
          · exact hx
          · exact absurd h hxa
        · intro hx
          exact Or.inl ⟨hx, by simpa using hxa⟩
    | false =>
      have hnotmem : ∀ y ∈ get_bp_tags bv, ¬(y = a) := by
        intro y hy
        have := List.any_eq_false.mp hfound y hy
        simpa using this
      simp only [Bool.false_eq_true, if_false]
      have happ : ((get_bp_tags bv ++ [a]).any (fun y => y == a)) = true := by
        rw [List.any_eq_true]
        exact ⟨a, by simp, by simp⟩
      rw [happ]
      simp only [if_true, List.filter_append]
      have h1 : (get_bp_tags bv).filter (fun y => !(y == a)) = get_bp_tags bv :=
        List.filter_eq_self.mpr (fun y hy => by simpa using hnotmem y hy)
      have h2 : ([a].filter (fun y => !(y == a))) = [] := by simp
      rw [h1, h2, List.append_nil]
  · intro hab
    have hab' : (a == b) = false := by simpa using hab
    have hba' : (b == a) = false := by
      simpa using (fun h => hab h.symm)
    have h0 : get_bp_tags emptyInitBV = [] := by decide
    have t1 : get_bp_tags (toggle_breakpoint emptyInitBV a) = [a] := by
      rw [bp_toggle, h0]
      simp
    have t2 : get_bp_tags (toggle_breakpoint (toggle_breakpoint emptyInitBV a) b)
        = [a, b] := by
      rw [bp_toggle, t1]
      simp [hab']
    rw [bp_toggle, t2]
    simp [hba']

/-- C2 witness: at a concrete state (one breakpoint tag at `10`), toggling
twice restores the set, and the empty-state `a, b, a` sequence with
`a = 10 ≠ 20 = b` yields exactly `[20]`. -/
theorem toggle_breakpoint_toggle_semantics_witness :
    get_bp_tags (toggle_breakpoint (toggle_breakpoint
      (toggle_breakpoint emptyInitBV 10) 20) 10) = [20] :=
  (toggle_breakpoint_toggle_semantics emptyInitBV 10 20).2.2.2 (by decide)

/-- C3: `update_pc_tag(a)` leaves exactly one PC tag, at `a` (with the
source's description string), and composing it with itself at the same
address is the identity on the already-updated state. -/
theorem update_pc_tag_unique (bv : BVState) (a : Nat) :
    get_tag_refs (update_pc_tag bv a) "pwndbg-pc" = [⟨"pwndbg-pc", a, "current pc"⟩]
  ∧ update_pc_tag (update_pc_tag bv a) a = update_pc_tag bv a := by
  constructor
  · simp [update_pc_tag, clear_pc_tag, add_auto_tag, get_tag_refs,
      List.filter_append, List.filter_filter]
  · simp [update_pc_tag, clear_pc_tag, add_auto_tag, List.filter_append,
      List.filter_filter]

/-- C10: toggling preserves the at-most-one-breakpoint-tag-per-address
invariant (stated as duplicate-freedom of the address list), and under
toggle-only mutation from the empty state `get_bp_tags` never contains a
duplicate address. -/
theorem toggle_breakpoint_no_duplicates (bv : BVState) (a : Nat) :
    ((get_bp_tags bv).Nodup → (get_bp_tags (toggle_breakpoint bv a)).Nodup)
  ∧ (∀ ops : List Nat,
      (get_bp_tags (ops.foldl toggle_breakpoint emptyInitBV)).Nodup) := by
  constructor
  · exact bp_nodup_toggle bv a
  · intro ops
    exact bp_nodup_foldl ops emptyInitBV (by decide)

/-- C10 witness: the invariant holds concretely after toggling `10` on the
empty state, and after the toggle sequence `10, 20, 10`. -/
theorem toggle_breakpoint_no_duplicates_witness :
    (get_bp_tags (toggle_breakpoint emptyInitBV 10)).Nodup ∧
    (get_bp_tags ([10, 20, 10].foldl toggle_breakpoint emptyInitBV)).Nodup :=
  ⟨(toggle_breakpoint_no_duplicates emptyInitBV 10).1 (by decide),
   (toggle_breakpoint_no_duplicates emptyInitBV 0).2 [10, 20, 10]⟩

/-- The fold implementing Python's `min(funcs, key=lambda f: f.start)`
returns one of the candidates, with minimal start. -/
theorem foldl_min_start (l : List BNFunc) :
    ∀ f : BNFunc,
      (l.foldl (fun best g => if g.start < best.start then g else best) f) ∈ f :: l
    ∧ ∀ g ∈ f :: l,
        (l.foldl (fun best g => if g.start < best.start then g else best) f).start
          ≤ g.start := by
  induction l with
  | nil =>
    intro f
    refine ⟨List.mem_singleton.mpr rfl, ?_⟩
    intro g hg
    rw [List.mem_singleton.mp hg]
    exact le_refl _
  | cons x t ih =>
    intro f
    rcases ih (if x.start < f.start then x else f) with ⟨hmem, hle⟩
    have hyf : (if x.start < f.start then x else f) = x
        ∨ (if x.start < f.start then x else f) = f := by
      split
      · exact Or.inl rfl
      · exact Or.inr rfl
    have hylef : (if x.start < f.start then x else f).start ≤ f.start := by
      split <;> omega
    have hylex : (if x.start < f.start then x else f).start ≤ x.start := by
      split <;> omega
    constructor
    · rw [List.foldl_cons]
      rcases List.mem_cons.mp hmem with h | h
      · rcases hyf with h2 | h2 <;> rw [h, h2] <;> simp
      · simp [h]
    · intro g hg
      rw [List.foldl_cons]
      have hbase : (t.foldl (fun best g => if g.start < best.start then g else best)
          (if x.start < f.start then x else f)).start
            ≤ (if x.start < f.start then x else f).start :=
        hle _ (List.mem_cons_self _ t)
      rcases List.mem_cons.mp hg with h | h
      · rw [h]
        exact le_trans hbase hylef
      · rcases List.mem_cons.mp h with h' | h'
        · rw [h']
          exact le_trans hbase hylex
        · exact hle g (List.mem_cons.mpr (Or.inr h'))

/-- C4: `get_func_info` answers "not found" exactly when no function range
contains the address; otherwise it reports the name and start of a
containing function whose start is minimal among all containers; and on the
spec's example (`F1` = `[0x1000,0x2000)`, `F2` = `[0x1500,0x1800)`) the
query at `0x1600` resolves to `F1`. -/
theorem get_func_info_widest (bv : BVState) (addr : Nat) :
    (get_func_info bv addr = none ↔
      ∀ f ∈ bv.funcs, ¬(f.start ≤ addr ∧ addr < f.stop))
  ∧ (∀ p, get_func_info bv addr = some p →
      ∃ f ∈ get_functions_containing bv addr,
        p = (f.name, f.start)
        ∧ ∀ g ∈ get_functions_containing bv addr, f.start ≤ g.start)
  ∧ get_func_info exBV 0x1600 = some ("F1", 0x1000) := by
  refine ⟨?_, ?_, by decide⟩
  · rw [get_func_info, Option.map_eq_none', get_widest_func]
    cases hsplit : get_functions_containing bv addr with
    | nil =>
      simp only [true_iff]
      have hnil := List.filter_eq_nil_iff.mp hsplit
      intro f hf hcontains
      exact absurd (decide_eq_true hcontains) (hnil f hf)
    | cons f fs =>
      constructor
      · intro h
        exact absurd h (Option.some_ne_none _)
      · intro hall
        have hf : f ∈ get_functions_containing bv addr := by
          rw [hsplit]
          exact List.mem_cons_self f fs
        rcases List.mem_filter.mp hf with ⟨hmem, hpred⟩
        exact (hall f hmem (of_decide_eq_true hpred)).elim
  · intro p hp
    rw [get_func_info, get_widest_func] at hp
    cases hsplit : get_functions_containing bv addr with
    | nil =>
      rw [hsplit] at hp
      exact absurd hp (by simp)
    | cons f fs =>
      rw [hsplit] at hp
      rw [Option.map_some', Option.some_inj] at hp
      rcases foldl_min_start fs f with ⟨hmem, hle⟩
      exact ⟨fs.foldl (fun best g => if g.start < best.start then g else best) f,
        hmem, hp.symm, hle⟩

/-- C4 witness: the general characterisation applied at the concrete
two-function view of the spec's example. -/
theorem get_func_info_widest_witness :
    get_func_info exBV 0x50 = none ∧ get_func_info exBV 0x1600 = some ("F1", 0x1000) :=
  ⟨(get_func_info_widest exBV 0x50).1.mpr (by decide),
   (get_func_info_widest exBV 0x1600).2.2⟩

/-- C5: `count_pointers` computes the leaf-type name and the number of
pointer wrappers; `get_func_type` is `none` whenever no function starts
exactly at the address (even one strictly inside a body); and at an exact
function start it returns the return type and the parameters in declaration
order as (leaf name, pointer depth, name) triples. -/
theorem get_func_type_exact (bv : BVState) (addr : Nat) :
    (∀ ty : BNType, count_pointers ty = (spec_leaf_name ty, spec_ptr_depth ty))
  ∧ ((∀ f ∈ bv.funcs, f.start ≠ addr) → get_func_type bv addr = none)
  ∧ (∀ f, get_function_at bv addr = some f →
      get_func_type bv addr =
        some ((spec_leaf_name f.ret, spec_ptr_depth f.ret, f.name),
          f.params.map (fun arg => (spec_leaf_name arg.2, spec_ptr_depth arg.2, arg.1)))) := by
  have hcp : ∀ ty : BNType, count_pointers ty = (spec_leaf_name ty, spec_ptr_depth ty) := by
    intro ty
    induction ty with
    | ptr target ih => simp [count_pointers, spec_leaf_name, spec_ptr_depth, ih]
    | named n => rfl
  refine ⟨hcp, ?_, ?_⟩
  · intro hnone
    rw [get_func_type, get_function_at, List.find?_eq_none.mpr ?_]
    · rfl
    · intro f hf
      simp only [beq_iff_eq]
      exact hnone f hf
  · intro f hf
    rw [get_func_type, hf, Option.map_some', Option.some_inj]
    simp [hcp]

/-- C5 witness: in `exTyBV`, `0x1600` is strictly inside `exF1` yet has no
exact function start, so `get_func_type` is `none` there; at the exact
start `0x1500` it returns the full type triples. -/
theorem get_func_type_exact_witness :
    (exF1.start < 0x1600 ∧ 0x1600 < exF1.stop)
  ∧ get_func_type exTyBV 0x1600 = none
  ∧ get_func_type exTyBV 0x1500 =
      some (("char", 1, "f3"), [("int", 0, "argc"), ("char", 2, "argv")]) :=
  ⟨by decide,
   (get_func_type_exact exTyBV 0x1600).2.1 (by decide),
   by
    rw [(get_func_type_exact exTyBV 0x1500).2.2 exTyF (by decide)]
    rfl⟩

/-- A registered tag-type name stays registered across `add_tag_type`. -/
theorem add_tag_type_preserves (bv : BVState) (kv : String × String) (k : String)
    (h : ((bv.tagTypes.map Prod.fst).contains k) = true) :
    (((add_tag_type bv kv).tagTypes.map Prod.fst).contains k) = true := by
  rw [add_tag_type]
  split
  · exact h
  · simp only [List.map_append]
    simp [List.elem_eq_mem] at h ⊢
    exact Or.inl h

/-- After `add_tag_type bv kv`, the name `kv.1` is registered. -/
theorem add_tag_type_mem (bv : BVState) (kv : String × String) :
    (((add_tag_type bv kv).tagTypes.map Prod.fst).contains kv.1) = true := by
  rw [add_tag_type]
  split
  · assumption
  · simp [List.elem_eq_mem]

/-- `add_tag_type` does nothing when the name is already registered. -/
theorem add_tag_type_noop (bv : BVState) (kv : String × String)
    (h : ((bv.tagTypes.map Prod.fst).contains kv.1) = true) :
    add_tag_type bv kv = bv := by
  rw [add_tag_type, if_pos h]

/-- Running `ServerHandler.init` twice is the same as running it once. -/
theorem handler_init_idem (bv : BVState) :
    handler_init (handler_init bv) = handler_init bv := by
  simp only [handler_init, List.foldl_cons, List.foldl_nil]
  have hpc : (((add_tag_type (add_tag_type bv ("pwndbg-pc", "➡️"))
      ("pwndbg-bp", "🔴")).tagTypes.map Prod.fst).contains "pwndbg-pc") = true :=
    add_tag_type_preserves _ _ _ (add_tag_type_mem bv ("pwndbg-pc", "➡️"))
  rw [add_tag_type_noop (add_tag_type (add_tag_type bv ("pwndbg-pc", "➡️"))
    ("pwndbg-bp", "🔴")) ("pwndbg-pc", "➡️") hpc]
  exact add_tag_type_noop _ _ (add_tag_type_mem _ ("pwndbg-bp", "🔴"))

/-- C6: starting the server when it is already started for the current
session changes nothing (a second `start_server` is the identity on the
world produced by the first), and stopping the server when it is not
started is a no-op. -/
theorem start_stop_server_noop (w : World) :
    start_server (start_server w) = start_server w
  ∧ (w.server = false → stop_server w = w) := by
  constructor
  · have hsrv : (start_server w).server = true := by
      rw [start_server]
      split <;> simp_all
    have hbv : (start_server w).bv = handler_init w.bv := by
      rw [start_server]
      split
      · rfl
      · rfl
    rw [start_server, if_pos hsrv, hbv, handler_init_idem, ← hbv]
  · intro h
    rw [stop_server, h]
    simp

/-- C6 witness: on a world with no server, `stop_server` is the identity and
a started world absorbs a second `start_server`. -/
theorem start_stop_server_noop_witness :
    start_server (start_server ⟨⟨[], [], [], []⟩, false⟩) =
      start_server ⟨⟨[], [], [], []⟩, false⟩
  ∧ stop_server ⟨⟨[], [], [], []⟩, false⟩ = ⟨⟨[], [], [], []⟩, false⟩ :=
  ⟨(start_stop_server_noop ⟨⟨[], [], [], []⟩, false⟩).1,
   (start_stop_server_noop ⟨⟨[], [], [], []⟩, false⟩).2 rfl⟩

/-- Filtering distributes over `flatMap`. -/
theorem filter_flatMap_comm (p : String → Bool) (f : BNFunc → List String)
    (l : List BNFunc) :
    (l.flatMap f).filter p = l.flatMap (fun x => (f x).filter p) := by
  induction l with
  | nil => rfl
  | cons x t ih => simp [List.flatMap_cons, List.filter_append, ih]

/-- C7: `get_comments` equals the spec's pipeline (containing functions in
ascending start order, split at newlines, empty lines dropped, marker
prepended); every returned entry is the marker followed by a non-empty
line; and the raw comment `"a\nb\n"` yields exactly the two prefixed
entries. -/
theorem get_comments_correct (bv : BVState) (addr : Nat) :
    get_comments bv addr = get_comments_spec bv addr
  ∧ (∀ e ∈ get_comments bv addr, ∃ x : String, (!(x == "")) = true ∧ e = "// " ++ x)
  ∧ get_comments exCommentBV 0x1600 = ["// a", "// b"] := by
  refine ⟨?_, ?_, by decide⟩
  · simp only [get_comments, get_comments_spec, spec_comment_lines]
    rw [List.filter_append, filter_flatMap_comm]
  · intro e he
    simp only [get_comments] at he
    rcases List.mem_map.mp he with ⟨x, hx, hxe⟩
    exact ⟨x, (List.mem_filter.mp hx).2, hxe.symm⟩

/-- C7 witness: the entry `"// a"` of the concrete query is the marker
applied to the non-empty line `"a"`. -/
theorem get_comments_correct_witness :
    ∃ x : String, (!(x == "")) = true ∧ "// a" = "// " ++ x :=
  (get_comments_correct exCommentBV 0x1600).2.1 "// a" (by decide)

/-- C8: with any fixed pair of bases, `to_static` and `to_runtime` are exact
inverses over the integers, in both composition orders. -/
theorem to_static_to_runtime_inverse (runtime_base static_base x : Int) :
    to_runtime runtime_base static_base (to_static runtime_base static_base x) = x
  ∧ to_static runtime_base static_base (to_runtime runtime_base static_base x) = x := by
  constructor <;>
    · rw [to_static, to_runtime]
      omega

/-- The clearing step leaves every cache subscribed to "forever" untouched
(contents and position), for any event under the hooks wiring. -/
theorem foreverCaches_clearCaches (e : Event) (cs : List Cache) :
    foreverCaches (clearCaches connect_groups e cs) = foreverCaches cs := by
  have hforever : clearsGroup connect_groups e "forever" = false := by
    have h : triggersOf connect_groups "forever" = [] := by decide
    simp [clearsGroup, h]
  induction cs with
  | nil => rfl
  | cons c t ih =>
    have hgroup : (if clearsGroup connect_groups e c.group then
        { c with contents := ([] : List Nat) } else c).group = c.group := by
      split <;> rfl
    simp only [clearCaches, List.map_cons, foreverCaches, List.filter_cons] at ih ⊢
    cases hcg : (c.group == "forever") with
    | true =>
      have hceq : (if clearsGroup connect_groups e c.group then
          { c with contents := ([] : List Nat) } else c) = c := by
        rw [show c.group = "forever" from by simpa using hcg, hforever]
        simp
      rw [hceq]
      simp only [hcg, if_true]
      rw [ih]
    | false =>
      rw [show ((if clearsGroup connect_groups e c.group then
          { c with contents := ([] : List Nat) } else c).group == "forever") = false from
        by rw [hgroup]; exact hcg]
      simp only [hcg, Bool.false_eq_true, if_false]
      exact ih

/-- C9: the trigger-group wiring of `hooks.py` maps exactly the eight groups
to their event tuples ("stop" and "cont" both include memory/register
writes, "forever" to nothing), and consequently no event's clearing step
ever touches a cache subscribed to "forever". -/
theorem connect_groups_wiring :
    connect_groups.map Prod.fst =
      ["stop", "exit", "objfile", "start", "cont", "thread", "prompt", "forever"]
  ∧ triggersOf connect_groups "stop" = [.stop, .mem_changed, .reg_changed]
  ∧ triggersOf connect_groups "exit" = [.exit]
  ∧ triggersOf connect_groups "objfile" = [.new_objfile]
  ∧ triggersOf connect_groups "start" = [.start]
  ∧ triggersOf connect_groups "cont" = [.cont, .mem_changed, .reg_changed]
  ∧ triggersOf connect_groups "thread" = [.thread]
  ∧ triggersOf connect_groups "prompt" = [.before_prompt]
  ∧ triggersOf connect_groups "forever" = []
  ∧ (∀ e : Event, clearsGroup connect_groups e "forever" = false)
  ∧ (∀ (e : Event) (cs : List Cache),
      foreverCaches (clearCaches connect_groups e cs) = foreverCaches cs) := by
  refine ⟨by decide, by decide, by decide, by decide, by decide, by decide,
    by decide, by decide, by decide, ?_, ?_⟩
  · intro e
    have h : triggersOf connect_groups "forever" = [] := by decide
    simp [clearsGroup, h]
  · exact fun e cs => foreverCaches_clearCaches e cs

/-- When exactly one handler is the clearing one, it sits at the reserved
priority and everything else is strictly later, sorting puts the clearing
handler first and only feature handlers after it. -/
theorem sortHandlers_clear_first (hs : List RegHandler)
    (hcount : hs.countP (fun h => isClear h.action) = 1)
    (hclear : ∀ h ∈ hs, isClear h.action = true → h.priority = cacheClearPriority)
    (hfeat : ∀ h ∈ hs, isClear h.action = false → cacheClearPriority < h.priority) :
    ∃ hc rest, sortHandlers hs = hc :: rest
      ∧ isClear hc.action = true
      ∧ ∀ h ∈ rest, isClear h.action = false := by
  have hperm : (sortHandlers hs).Perm hs := List.perm_insertionSort _ hs
  have hsorted : List.Sorted (fun a b : RegHandler => a.priority ≤ b.priority)
      (sortHandlers hs) := List.sorted_insertionSort _ hs
  have hcount' : (sortHandlers hs).countP (fun h => isClear h.action) = 1 := by
    rw [hperm.countP_eq]
    exact hcount
  cases hsort : sortHandlers hs with
  | nil =>
    rw [hsort] at hcount'
    simp at hcount'
  | cons h0 rest =>
    rw [hsort] at hcount' hsorted hperm
    rcases List.sorted_cons.mp hsorted with ⟨hle, -⟩
    have h0mem : h0 ∈ hs := hperm.subset (List.mem_cons_self h0 rest)
    by_cases hc0 : isClear h0.action = true
    · refine ⟨h0, rest, rfl, hc0, ?_⟩
      rw [List.countP_cons] at hcount'
      simp only [hc0, if_true] at hcount'
      have hzero : rest.countP (fun h => isClear h.action) = 0 := by omega
      intro h hmem
      have hnot := List.countP_eq_zero.mp hzero h hmem
      simpa using hnot
    · exfalso
      have hc0' : isClear h0.action = false := by
        simpa using hc0
      have hpos : 0 < rest.countP (fun h => isClear h.action) := by
        rw [List.countP_cons] at hcount'
        simp only [hc0', Bool.false_eq_true, if_false] at hcount'
        omega
      rcases List.countP_pos_iff.mp hpos with ⟨hcl, hclmem, hcltrue⟩
      have hclhs : hcl ∈ hs := hperm.subset (List.mem_cons.mpr (Or.inr hclmem))
      have h1 : hcl.priority = cacheClearPriority := hclear hcl hclhs hcltrue
      have h2 : cacheClearPriority < h0.priority := hfeat h0 h0mem hc0'
      have h3 : h0.priority ≤ hcl.priority := hle hcl hclmem
      omega

/-- Feature handlers never modify the caches: folding them leaves the cache
list of the state unchanged. -/
theorem foldl_feature_caches (wiring : List (String × List Event)) (e : Event)
    (l : List RegHandler) :
    (∀ h ∈ l, isClear h.action = false) → ∀ s : SysState,
      (l.foldl (fun st h => runHandler wiring e h.action st) s).caches = s.caches := by
  induction l with
  | nil =>
    intro _ s
    rfl
  | cons h t ih =>
    intro hfeat s
    rw [List.foldl_cons]
    have hstep : (runHandler wiring e h.action s).caches = s.caches := by
      cases ha : h.action with
      | clear =>
        have := hfeat h (List.mem_cons_self h t)
        rw [ha] at this
        exact absurd this (by simp [isClear])
      | feature f => rw [runHandler]
    rw [ih (fun h' hm => hfeat h' (List.mem_cons.mpr (Or.inr hm))) _, hstep]

/-- Every intermediate state of a feature-only run carries the caches of the
state it started from. -/
theorem scanl_feature_caches (wiring : List (String × List Event)) (e : Event)
    (l : List RegHandler) :
    (∀ h ∈ l, isClear h.action = false) → ∀ (s : SysState) (st : SysState),
      st ∈ List.scanl (fun st h => runHandler wiring e h.action st) s l →
      st.caches = s.caches := by
  induction l with
  | nil =>
    intro _ s st hmem
    rw [List.scanl_nil] at hmem
    simp only [List.mem_singleton] at hmem
    rw [hmem]
  | cons h t ih =>
    intro hfeat s st hmem
    rw [List.scanl_cons, List.singleton_append] at hmem
    rcases List.mem_cons.mp hmem with hst | hst
    · rw [hst]
    · have hstep : (runHandler wiring e h.action s).caches = s.caches := by
        cases ha : h.action with
        | clear =>
          have := hfeat h (List.mem_cons_self h t)
          rw [ha] at this
          exact absurd this (by simp [isClear])
        | feature f => rw [runHandler]
      rw [ih (fun h' hm => hfeat h' (List.mem_cons.mpr (Or.inr hm))) _ st hst, hstep]

/-- After the clearing step of a process-stop event, every cache of group
"stop" is empty. -/
theorem clearCaches_stop (cs : List Cache) :
    ∀ c ∈ clearCaches connect_groups .stop cs, c.group = "stop" → c.contents = [] := by
  intro c hc hg
  rw [clearCaches] at hc
  rcases List.mem_map.mp hc with ⟨c0, hc0, rfl⟩
  cases h : clearsGroup connect_groups Event.stop c0.group with
  | true =>
    simp [h]
  | false =>
    simp only [h, Bool.false_eq_true, if_false] at hg ⊢
    exfalso
    rw [hg] at h
    exact absurd h (by decide)

/-- C1: dispatching a process-stop event under the hooks wiring runs the
reserved-priority clearing handler first, so every non-clearing handler
observes all "stop"-group caches already cleared, while caches subscribed
only to "forever" end up exactly as they started. -/
theorem cache_cleared_before_other_handlers (hs : List RegHandler) (s0 : SysState)
    (hcount : hs.countP (fun h => isClear h.action) = 1)
    (hclear : ∀ h ∈ hs, isClear h.action = true → h.priority = cacheClearPriority)
    (hfeat : ∀ h ∈ hs, isClear h.action = false → cacheClearPriority < h.priority) :
    (∀ p ∈ (sortHandlers hs).zip (dispatchStates connect_groups .stop hs s0),
        isClear p.1.action = false →
        ∀ c ∈ p.2.caches, c.group = "stop" → c.contents = [])
  ∧ foreverCaches (dispatch connect_groups .stop hs s0).caches
      = foreverCaches s0.caches := by
  rcases sortHandlers_clear_first hs hcount hclear hfeat with
    ⟨hc, rest, hsort, hcclear, hrest⟩
  have hac : hc.action = .clear := by
    cases ha : hc.action with
    | clear => rfl
    | feature f =>
      rw [ha] at hcclear
      exact absurd hcclear (by simp [isClear])
  constructor
  · intro p hp hpfeat
    obtain ⟨ph, pst⟩ := p
    simp only at hpfeat
    rw [dispatchStates, hsort, List.scanl_cons, List.singleton_append,
      List.zip_cons_cons] at hp
    rcases List.mem_cons.mp hp with hph | hph
    · have hfst : ph = hc := congrArg Prod.fst hph
      rw [hfst, hcclear] at hpfeat
      exact absurd hpfeat (by simp)
    · rcases List.of_mem_zip hph with ⟨-, hmem2⟩
      have hcaches := scanl_feature_caches connect_groups .stop rest hrest _ pst hmem2
      rw [hac] at hcaches
      simp only [runHandler] at hcaches
      intro c hcmem hcg
      rw [hcaches] at hcmem
      exact clearCaches_stop s0.caches c hcmem hcg
  · rw [dispatch, hsort, List.foldl_cons,
      foldl_feature_caches connect_groups .stop rest hrest _, hac]
    simp only [runHandler]
    exact foreverCaches_clearCaches .stop s0.caches

/-- C1 witness: on the concrete table and state, dispatching process-stop
leaves the "forever" cache exactly as it was. -/
theorem cache_cleared_before_other_handlers_witness :
    foreverCaches (dispatch connect_groups .stop exHandlers exSysState).caches
      = foreverCaches exSysState.caches :=
  (cache_cleared_before_other_handlers exHandlers exSysState
    (by decide) (by decide) (by decide)).2
